import Mathlib

/-!
# randqa — formal verification of the statistical testing core

Shallow embedding of the randqa repository's statistical testing engine
(`src/main.py`, `src/util/fdr.py`, `src/metrics/*`, `src/health/*`,
`src/ml/predictor.py`) and proofs about the spec's claims.

Conventions of the embedding:
* A bit sequence (NumPy 0/1 `uint8` array) is a `List Bool`.
* Python `float` arithmetic is modelled as exact arithmetic: over `ℚ` where
  the source only adds, multiplies, divides and compares, and over `ℝ` where
  the source takes square roots.
* The transcendental library routines `scipy.special.erfc` and
  `scipy.special.gammaincc` have no closed form; they enter the embedding as
  explicit function parameters (`erfc`, `gammaincc`).  Theorems that depend
  on their analytic behaviour take that behaviour as a hypothesis
  (e.g. `erfc x ∈ [0,1]` for `x ≥ 0`).
* Python exceptions (`raise ValueError`) are modelled with `Except String`;
  a raising call site propagates the error through `do`-notation exactly as
  an uncaught Python exception propagates.
* Python `dict`s with string keys are association lists `List (String × _)`
  (insertion-ordered, unique keys), matching Python 3.7+ semantics.
-/

namespace Randqa

/-! ## Bit packing (`src/main.py`: `_pack_bits_little`, `bits_from_source`) -/

/-- One byte, LSB-first, as produced by `np.unpackbits(…, bitorder="little")`:
byte `B` becomes the bit list `[B₀, B₁, …, B₇]` (bit `k` = `B.testBit k`). -/
def byteToBits (B : ℕ) : List Bool :=
  (List.range 8).map (fun k => B.testBit k)

/-- LSB-first value of (up to) 8 bits, as `np.packbits(…, bitorder="little")`
computes one byte: `[b₀, …, b₇] ↦ Σ bₖ·2^k`. -/
def bitsToByte (chunk : List Bool) : ℕ :=
  chunk.foldr (fun b acc => 2 * acc + (if b then 1 else 0)) 0

/-- Split a bit list into consecutive groups of 8 (the byte lanes of
`np.packbits`). -/
def chunks8 (l : List Bool) : List (List Bool) :=
  if l = [] then [] else l.take 8 :: chunks8 (l.drop 8)
termination_by l.length
decreasing_by
  rename_i h
  have hl : 0 < l.length := List.length_pos.mpr h
  simp [List.length_drop]
  omega

/-- `src/main.py` `_pack_bits_little`: pack an arbitrary-length 0/1 bit array
into bytes, LSB-first within each byte, zero-padding the final partial byte.
`rem = (-n) % 8` in Python is `(8 - n % 8) % 8` for `n ≥ 0`. -/
def _pack_bits_little (bits : List Bool) : List ℕ :=
  if bits = [] then [] else
    let n := bits.length
    let rem := (8 - n % 8) % 8
    let padded := bits ++ List.replicate rem false
    (chunks8 padded).map bitsToByte

/-- `np.unpackbits(arr, bitorder="little")`: every byte expands to its 8 bits,
LSB first. -/
def unpackbits_little (bytes : List ℕ) : List Bool :=
  (bytes.map byteToBits).flatten

/-- The byte-source path of `src/main.py` `bits_from_source`: unpack raw bytes
LSB-first and truncate to the requested bit count. -/
def bits_from_bytes (raw : List ℕ) (n_bits : ℕ) : List Bool :=
  (unpackbits_little raw).take n_bits

/-! ## Health tests (`src/health/rct.py`, `src/health/apt.py`)

Python's result `dict`s become structures; a missing key (the source emits
`reason` only when the test did not run) becomes an `Option` field.
`raise ValueError(msg)` becomes `Except.error msg`. -/

/-- Result dict of `repetition_count_test` (`src/health/rct.py`). -/
structure RctResult where
  pass : Option Bool
  max_run : ℕ
  cutoff : ℤ
  approx_p : Option ℚ
  n : ℕ
  reason : Option String
  deriving Repr, DecidableEq

/-- Result dict of `adaptive_proportion_test` (`src/health/apt.py`).
Window indices and one-counts are naturals. -/
structure AptResult where
  pass : Option Bool
  window : ℤ
  alpha : ℚ
  lower : Option ℕ
  upper : Option ℕ
  violations : List (ℕ × ℕ)
  n : ℕ
  n_windows : ℕ
  reason : Option String
  deriving Repr, DecidableEq

/-- The scan loop of `repetition_count_test`: `runs`/`max_run` accumulators,
comparing each bit with its predecessor. -/
def maxRunGo : Bool → List Bool → ℕ → ℕ → ℕ
  | _, [], _, mx => mx
  | prev, c :: t, run, mx =>
    if c = prev then maxRunGo c t (run + 1) (max mx (run + 1))
    else maxRunGo c t 1 mx

/-- Maximum run length of identical consecutive bits (`runs = 1; max_run = 1;
for i in 1..n: …` in `src/health/rct.py`); 0 on the empty list (unreached in
the source, which returns earlier for `n = 0`). -/
def maxRunLength : List Bool → ℕ
  | [] => 0
  | b :: rest => maxRunGo b rest 1 1

/-- `src/health/rct.py` `repetition_count_test`. `2.0 ** (1 - cutoff)` is the
exact rational `(2 : ℚ) ^ ((1 : ℤ) - cutoff)`. -/
def repetition_count_test (bits : List Bool) (cutoff : ℤ) :
    Except String RctResult :=
  if cutoff < 2 then .error "RCT cutoff must be an integer >= 2" else
  let n := bits.length
  if n = 0 then
    .ok { pass := none, max_run := 0, cutoff := cutoff, approx_p := none,
          n := 0, reason := some "insufficient bits: n=0" }
  else
    let max_run := maxRunLength bits
    let approx_p : ℚ := min 1 ((n : ℚ) * (2 : ℚ) ^ ((1 : ℤ) - cutoff))
    .ok { pass := some (decide ((max_run : ℤ) < cutoff)), max_run := max_run,
          cutoff := cutoff, approx_p := some approx_p, n := n, reason := none }

/-- CDF of `Binomial(w, 0.5)` at `k`: `Σ_{j ≤ k} C(w,j) / 2^w`, exact. -/
def binomCdf (w k : ℕ) : ℚ :=
  ((Finset.range (k + 1)).sum fun j => ((w.choose j : ℕ) : ℚ)) / 2 ^ w

/-- `scipy.stats.binom.ppf(q, w, 0.5)` for `q ∈ (0, 1]`: the smallest `k`
with `cdf(k) ≥ q` (the fallback `w` is never reached since `cdf(w) = 1`). -/
def binom_ppf (q : ℚ) (w : ℕ) : ℕ :=
  (((List.range (w + 1)).find? fun k => decide (q ≤ binomCdf w k)).getD w)

/-- `scipy.stats.binom.isf(q, w, 0.5)` for `q ∈ (0, 1)`: the smallest `k`
with survival `1 - cdf(k) ≤ q`. -/
def binom_isf (q : ℚ) (w : ℕ) : ℕ :=
  (((List.range (w + 1)).find? fun k => decide (1 - binomCdf w k ≤ q)).getD w)

/-- Ones count of the `i`-th non-overlapping window of size `w`
(row `i` of the source's `reshape(n_windows, w)`). -/
def windowOnes (bits : List Bool) (w i : ℕ) : ℕ :=
  ((bits.drop (i * w)).take w).count true

/-- `src/health/apt.py` `adaptive_proportion_test`. The `violations` loop
(append for every window whose one-count leaves `[lower, upper]`) is the
`filterMap` over window indices in order. -/
def adaptive_proportion_test (bits : List Bool) (window : ℤ) (alpha : ℚ) :
    Except String AptResult :=
  if window ≤ 0 then .error "APT window must be > 0" else
  if ¬(0 < alpha ∧ alpha < 1) then .error "alpha must be in (0, 1)" else
  let w := window.toNat
  let n := bits.length
  if n < w then
    .ok { pass := none, window := window, alpha := alpha, lower := none,
          upper := none, violations := [], n := n, n_windows := 0,
          reason := some ("insufficient bits: n=" ++ toString n ++
            " < window=" ++ toString w) }
  else
    let lower := binom_ppf (alpha / 2) w
    let upper := binom_isf (alpha / 2) w
    let n_windows := n / w
    let violations := (List.range n_windows).filterMap fun i =>
      if windowOnes bits w i < lower ∨ upper < windowOnes bits w i
      then some (i, windowOnes bits w i) else none
    .ok { pass := some (decide (violations = [])), window := window,
          alpha := alpha, lower := some lower, upper := some upper,
          violations := violations, n := n, n_windows := n_windows,
          reason := none }

/-! ## BH-FDR (`src/util/fdr.py`) -/

/-- The `raw` list of `benjamini_hochberg`: at 1-based sorted position `i`
of `m` tests, `min(p·m/i, 1)`. -/
def bh_raw (m : ℕ) : List (String × ℚ) → ℕ → List (String × ℚ)
  | [], _ => []
  | (k, p) :: rest, i => (k, min (p * m / i) 1) :: bh_raw m rest (i + 1)

/-- The running minimum carried into the current position: the q-value one
position later in sorted order, or the initial `1.0` at the end. -/
def bh_tail_min : List (String × ℚ) → ℚ
  | [] => 1
  | (_, q2) :: _ => q2

/-- The reversed running-minimum pass of `benjamini_hochberg`
(`running = 1.0; for … in reversed(raw): running = min(running, q)`),
written as structural recursion on the suffix: each q-value is the minimum of
its raw value and the q-value one position later (1 at the end). -/
def bh_step_up : List (String × ℚ) → List (String × ℚ)
  | [] => []
  | (k, q) :: rest => (k, min q (bh_tail_min (bh_step_up rest))) :: bh_step_up rest

/-- `src/util/fdr.py` `benjamini_hochberg`: filter out `None` p-values,
stable-sort ascending by p, take `min(p·m/i, 1)`, enforce monotonicity with a
running minimum from the end, and map q-values back onto the input keys. -/
def benjamini_hochberg (pdict : List (String × Option ℚ)) :
    List (String × Option ℚ) :=
  let items := pdict.filterMap fun kv => kv.2.map fun p => (kv.1, p)
  let m := items.length
  if m = 0 then [] else
  let sorted := items.mergeSort fun a b => decide (a.2 ≤ b.2)
  let raw := bh_raw m sorted 1
  let qvals_sorted := bh_step_up raw
  pdict.map fun kv => (kv.1, qvals_sorted.lookup kv.1)

/-! ## p-value battery over ℝ (`src/metrics/*.py`)

`scipy.special.erfc` and `scipy.special.gammaincc` enter as function
parameters; `np.log` is `Real.log`; `np.sqrt` is `Real.sqrt`. -/

/-- Number of ones in the sequence (`np.sum(bits)`). -/
def ones (bits : List Bool) : ℕ := bits.count true

/-- `np.sum(bits[1:] != bits[:-1])`: adjacent unequal pairs. -/
def transitions (bits : List Bool) : ℕ :=
  (bits.zip bits.tail).countP fun p => decide (p.1 ≠ p.2)

/-- `src/metrics/mono_bit.py` `mono_bit_pvalue`. -/
noncomputable def mono_bit_pvalue (erfc : ℝ → ℝ) (bits : List Bool) : ℝ :=
  let n := bits.length
  if n = 0 then 1 else
  let o := ones bits
  let z := n - o
  let S : ℝ := ((o : ℝ) - (z : ℝ)) / Real.sqrt n
  erfc (|S| / Real.sqrt 2)

/-- `src/metrics/monobit.py` `monobit_pvalue`:
`s_obs = Σ (2·xᵢ − 1)`, `p = erfc(|s_obs| / sqrt(2n))`; 0.0 for `n = 0`. -/
noncomputable def monobit_pvalue (erfc : ℝ → ℝ) (bits : List Bool) : ℝ :=
  let n := bits.length
  if n = 0 then 0 else
  let s_obs : ℤ := (bits.map fun b => if b then (1 : ℤ) else -1).sum
  erfc (|(s_obs : ℝ)| / Real.sqrt (2 * n))

/-- `src/metrics/runs.py` `runs_pvalue`. The guard
`pi in (0.0, 1.0) or abs(pi - 0.5) >= tau` is kept branch-for-branch. -/
noncomputable def runs_pvalue (erfc : ℝ → ℝ) (bits : List Bool) : ℝ :=
  let n := bits.length
  if n < 2 then 0 else
  let pi : ℝ := (ones bits : ℝ) / n
  let tau : ℝ := 2 / Real.sqrt n
  if pi = 0 ∨ pi = 1 ∨ tau ≤ |pi - 1/2| then 0 else
  let V : ℝ := (transitions bits : ℝ) + 1
  let num := |V - 2 * n * pi * (1 - pi)|
  let denom := 2 * Real.sqrt (2 * n) * pi * (1 - pi)
  if denom = 0 then 0 else erfc (num / denom)

/-- `src/metrics/block_frequency.py` `block_frequency_pvalue`. Note the
source returns `0.0` for `M ≤ 0` (it does NOT raise). -/
noncomputable def block_frequency_pvalue (gammaincc : ℝ → ℝ → ℝ)
    (bits : List Bool) (M : ℤ) : ℝ :=
  let n := bits.length
  if M ≤ 0 then 0 else
  let Mn := M.toNat
  let N := n / Mn
  if N = 0 then 0 else
  let pis : List ℝ :=
    (List.range N).map fun i =>
      ((((bits.drop (i * Mn)).take Mn).count true : ℝ) / (Mn : ℝ))
  let X2 : ℝ := 4 * (M : ℝ) * ((pis.map fun p => (p - 1/2) ^ 2).sum)
  gammaincc ((N : ℝ) / 2) (X2 / 2)

/-- MSB-first integer code of an `m`-bit window (the source's
`windows @ weights` with `weights = 1 << arange(m)[::-1]`). -/
def windowCode (w : List Bool) : ℕ :=
  w.foldl (fun acc b => 2 * acc + (if b then 1 else 0)) 0

/-- Codes of the `n` overlapping `m`-bit windows of the sequence extended by
wrap-around of its first `m − 1` bits (`src/metrics/approx_entropy.py`). -/
def apenWindows (bits : List Bool) (m : ℕ) : List ℕ :=
  let x := bits ++ bits.take (m - 1)
  (List.range bits.length).map fun i => windowCode ((x.drop i).take m)

/-- The inner `phi` of `approximate_entropy_pvalue`:
`Σ_{patterns with count > 0} (count/n)·ln(count/n)`. -/
noncomputable def phi (bits : List Bool) (m : ℕ) : ℝ :=
  let n := bits.length
  let idx := apenWindows bits m
  ((List.range (2 ^ m)).map fun c =>
    let p : ℝ := ((idx.count c : ℕ) : ℝ) / n
    if 0 < p then p * Real.log p else 0).sum

/-- `src/metrics/approx_entropy.py` `approximate_entropy_pvalue`. -/
noncomputable def approximate_entropy_pvalue (gammaincc : ℝ → ℝ → ℝ)
    (bits : List Bool) (m : ℕ) : ℝ :=
  let n := bits.length
  if n ≤ m + 1 then 0 else
  let ap_en := phi bits m - phi bits (m + 1)
  let chi2 : ℝ := 2 * n * max 0 (Real.log 2 - ap_en)
  let v : ℕ := 2 ^ (m - 1)
  gammaincc (v : ℝ) (chi2 / 2)

/-! ## ML predictor (`src/ml/predictor.py`)

The classifier fit-and-predict step (`sklearn.LogisticRegression`) is not
numeric code of this repository; it enters as a function parameter `fit`
returning `none` exactly where the source's `try/except` returns `None`. -/

/-- `np.lib.stride_tricks.sliding_window_view(bits, w)`. -/
def slidingWindows (bits : List Bool) (w : ℕ) : List (List Bool) :=
  (List.range (bits.length + 1 - w)).map fun i => (bits.drop i).take w

/-- `src/ml/predictor.py` `_to_supervised`: features = previous `k` bits,
label = next bit, over all `(k+1)`-bit windows. -/
def _to_supervised (bits : List Bool) (k : ℤ) :
    Option (List (List Bool) × List Bool) :=
  if k < 1 then none else
  let kn := k.toNat
  let n := bits.length
  if n ≤ kn then none else
  let windows := slidingWindows bits (kn + 1)
  -- `n > k` makes the source's try/except and emptiness guards unreachable,
  -- but keep the shape guard faithfully:
  if windows.length < 1 then none else
  some (windows.map (fun w => w.take kn), windows.map (fun w => w.getLastD false))

/-- `sklearn.metrics.accuracy_score` on boolean labels: fraction equal. -/
def accuracy_score (yTrue yPred : List Bool) : ℚ :=
  if yTrue.length = 0 then 0 else
  (((yTrue.zip yPred).countP fun p => decide (p.1 = p.2) : ℕ) : ℚ) / yTrue.length

/-- `src/ml/predictor.py` `predictability_score`. `int(m * train_frac)` is
`⌊m·train_frac⌋` (the product is non-negative). -/
def predictability_score
    (fit : List (List Bool) → List Bool → List (List Bool) → Option (List Bool))
    (bits : List Bool) (k : ℤ) (train_frac : ℚ) : Option ℚ :=
  if k < 1 then none else
  if ¬(0 < train_frac ∧ train_frac < 1) then none else
  match _to_supervised bits k with
  | none => none
  | some (X, y) =>
    let m := X.length
    if m < 2 then none else
    let split := (Int.floor ((m : ℚ) * train_frac)).toNat
    if split ≤ 0 ∨ m ≤ split then none else
    let y_train := y.take split
    if y_train.dedup.length < 2 then none else
    match fit (X.take split) y_train (X.drop split) with
    | none => none
    | some y_hat => some (accuracy_score (y.drop split) y_hat)

/-- The training-label portion examined by `predictability_score`'s
single-class guard (empty when `_to_supervised` bails out). -/
def train_labels (bits : List Bool) (k : ℤ) (train_frac : ℚ) : List Bool :=
  match _to_supervised bits k with
  | none => []
  | some (X, y) =>
    let m := X.length
    let split := (Int.floor ((m : ℚ) * train_frac)).toNat
    y.take split

/-! ## Aggregator (`src/main.py` `run_tests`)

The four p-value tests, the entropy/compression metrics and the ML predictor
enter as function parameters (their numeric content lives in the ℝ-valued
definitions above and in unmodelled library code); `run_tests`'s own logic —
health-test dispatch, empty-input standardization, BH-FDR, rejection and the
overall verdict — is embedded literally, over exact rationals. -/

/-- The `decisions` sub-dict of `run_tests`. Thresholds:
`0.55 = 11/20`, `0.95 = 19/20`, `0.98 = 49/50`. -/
structure Decisions where
  mono_bit_pass : Bool
  runs_pass : Bool
  block_frequency_pass : Bool
  approx_entropy_pass : Bool
  ml_pass : Bool
  compression_pass : Bool
  entropy_pass : Bool
  rct_pass : Option Bool
  apt_pass : Option Bool
  overall_pass_fdr : Bool
  deriving Repr, DecidableEq

/-- The result dict of `run_tests`. -/
structure RunResult where
  mono_bit_p : ℚ
  runs_p : ℚ
  block_frequency_p : ℚ
  approx_entropy_p : ℚ
  shannon_entropy_bits_per_bit : ℚ
  compression_ratio : ℚ
  ml_accuracy : Option ℚ
  rct : RctResult
  apt : AptResult
  pvals_raw : List (String × ℚ)
  pvals_fdr : List (String × Option ℚ)
  decisions : Decisions
  alpha : ℚ
  rct_cutoff : ℤ
  apt_window : ℤ
  deriving Repr, DecidableEq

/-- `_not_failed` helper of `run_tests`: `False if x is False else True`. -/
def not_failed : Option Bool → Bool
  | some false => false
  | _ => true

/-- The health-test dispatch inside `run_tests` (`src/main.py`): empty input
is standardized to "skipped" (`pass = none`) without calling the health tests
(so their parameter checks never run); otherwise RCT then APT run, and a
parameter error from either aborts the whole computation.  The source's
inline `n = 0` dicts omit the `n`/`n_windows`/`reason` keys; the structure
fields below take their default-shaped values. -/
def run_health (bits : List Bool) (alpha : ℚ) (rct_cutoff apt_window : ℤ) :
    Except String (RctResult × AptResult) :=
  if bits.length = 0 then
    pure (({ pass := none, max_run := 0, cutoff := rct_cutoff,
             approx_p := none, n := 0, reason := none } : RctResult),
          ({ pass := none, window := apt_window, alpha := alpha,
             lower := none, upper := none, violations := [], n := 0,
             n_windows := 0, reason := none } : AptResult))
  else do
    let rct ← repetition_count_test bits rct_cutoff
    let apt ← adaptive_proportion_test bits apt_window alpha
    pure (rct, apt)

/-- `src/main.py` `run_tests`. -/
def run_tests
    (p_mono p_runs : List Bool → ℚ)
    (p_blk : List Bool → ℤ → ℚ)
    (p_apen : List Bool → ℕ → ℚ)
    (entropyF : List Bool → ℚ)
    (crF : List ℕ → ℚ)
    (mlF : List Bool → ℤ → Option ℚ)
    (bits : List Bool) (block_size ml_k : ℤ)
    (alpha : ℚ) (rct_cutoff apt_window : ℤ) :
    Except String RunResult := do
  let n := bits.length
  -- Byte view for compression (preserve all bits by padding the last byte)
  let raw_bytes := _pack_bits_little bits
  -- p-value tests
  let pm := p_mono bits
  let pr := p_runs bits
  let pb := p_blk bits block_size
  let pa := p_apen bits 2
  -- Supporting metrics
  let entropy := entropyF bits
  let cr := crF raw_bytes
  let acc := mlF bits ml_k
  -- Health tests (SP 800-90B); see `run_health`.
  let hp ← run_health bits alpha rct_cutoff apt_window
  let rct := hp.1
  let apt := hp.2
  -- BH-FDR across p-value tests
  let pvals : List (String × ℚ) :=
    [("mono_bit", pm), ("runs", pr), ("block_frequency", pb),
     ("approx_entropy", pa)]
  let qvals := benjamini_hochberg (pvals.map fun kv => (kv.1, some kv.2))
  let reject_fdr : List (String × Bool) := qvals.map fun kq =>
    (kq.1, match kq.2 with | some q => decide (q ≤ alpha) | none => false)
  let decisions : Decisions := {
    mono_bit_pass := decide (alpha < pm)
    runs_pass := decide (alpha < pr)
    block_frequency_pass := decide (alpha < pb)
    approx_entropy_pass := decide (alpha < pa)
    ml_pass := match acc with | none => true | some a => decide (a ≤ 11/20)
    compression_pass := decide ((19 : ℚ)/20 ≤ cr)
    entropy_pass := decide ((49 : ℚ)/50 ≤ entropy)
    rct_pass := rct.pass
    apt_pass := apt.pass
    overall_pass_fdr := (!(reject_fdr.any fun kb => kb.2))
      && not_failed rct.pass && not_failed apt.pass }
  pure { mono_bit_p := pm, runs_p := pr, block_frequency_p := pb,
         approx_entropy_p := pa, shannon_entropy_bits_per_bit := entropy,
         compression_ratio := cr, ml_accuracy := acc, rct := rct, apt := apt,
         pvals_raw := pvals, pvals_fdr := qvals, decisions := decisions,
         alpha := alpha, rct_cutoff := rct_cutoff, apt_window := apt_window }

/-! ## Theorems -/

/-! ### Round-trip (claim C8) -/

theorem byteToBits_bitsToByte (a b c d e f g h : Bool) :
    byteToBits (bitsToByte [a, b, c, d, e, f, g, h]) = [a, b, c, d, e, f, g, h] := by
  revert a b c d e f g h
  decide

theorem unpack_chunks8 (l : List Bool) (hl : l.length % 8 = 0) :
    unpackbits_little ((chunks8 l).map bitsToByte) = l := by
  induction l using chunks8.induct with
  | case1 =>
    simp [chunks8, unpackbits_little]
  | case2 l hne ih =>
    have hlen : 8 ≤ l.length := by
      rcases Nat.lt_or_ge l.length 8 with hlt | hge
      · exfalso
        have : l.length = 0 := by omega
        exact hne (List.eq_nil_of_length_eq_zero this)
      · exact hge
    have hdrop : (l.drop 8).length % 8 = 0 := by
      simp [List.length_drop]
      omega
    have htake : (l.take 8).length = 8 := by
      simp [List.length_take]
      omega
    rw [chunks8]
    simp only [if_neg hne, List.map_cons, unpackbits_little, List.flatten_cons]
    have hbyte : byteToBits (bitsToByte (l.take 8)) = l.take 8 := by
      match ht : l.take 8, htake with
      | [a, b, c, d, e, f, g, h], _ => exact byteToBits_bitsToByte a b c d e f g h
    rw [hbyte]
    have := ih hdrop
    simp only [unpackbits_little] at this
    rw [this, List.take_append_drop]

/-- **C8.** Packing a bit sequence to bytes LSB-first with a zero-padded final
partial byte (`_pack_bits_little`) and unpacking LSB-first truncated to the
original bit count reproduces the original sequence, for every length. -/
theorem pack_unpack_roundtrip (bits : List Bool) :
    bits_from_bytes (_pack_bits_little bits) bits.length = bits := by
  by_cases hb : bits = []
  · subst hb
    simp [bits_from_bytes, _pack_bits_little, unpackbits_little]
  · unfold bits_from_bytes _pack_bits_little
    simp only [if_neg hb]
    have hmod : (bits.length + (8 - bits.length % 8) % 8) % 8 = 0 := by
      omega
    have hlen : (bits ++ List.replicate ((8 - bits.length % 8) % 8) false).length % 8 = 0 := by
      simp [List.length_append, List.length_replicate]
      omega
    rw [unpack_chunks8 _ hlen]
    rw [List.take_append_of_le_length (le_refl _)]
    simp

end Randqa

namespace Randqa

/-! ### Parameter validation (claims C3, C4) -/

/-- **C3 (counterexample).** The claim says `block_frequency_pvalue` rejects
`M ≤ 0` with an error and never returns a numeric result; the source instead
returns the numeric value `0.0` at `M = 0`. -/
theorem block_frequency_M_zero_numeric :
    block_frequency_pvalue (fun _ _ => 1/2) [true] 0 = 0 := by
  simp [block_frequency_pvalue]

/-- **C3 (amended).** APT rejects `window ≤ 0` and `alpha ∉ (0,1)`, RCT
rejects `cutoff < 2`, each immediately with a descriptive error and without
clamping; `block_frequency_pvalue` with `M ≤ 0` instead returns `p = 0.0`
without raising. -/
theorem param_validation (bits : List Bool) (window : ℤ) (a : ℚ)
    (cutoff : ℤ) (M : ℤ) (g : ℝ → ℝ → ℝ) :
    (window ≤ 0 →
      adaptive_proportion_test bits window a = .error "APT window must be > 0") ∧
    (0 < window → ¬(0 < a ∧ a < 1) →
      adaptive_proportion_test bits window a = .error "alpha must be in (0, 1)") ∧
    (cutoff < 2 →
      repetition_count_test bits cutoff = .error "RCT cutoff must be an integer >= 2") ∧
    (M ≤ 0 → block_frequency_pvalue g bits M = 0) := by
  refine ⟨fun h => ?_, fun h1 h2 => ?_, fun h => ?_, fun h => ?_⟩
  · rw [adaptive_proportion_test, if_pos h]
  · rw [adaptive_proportion_test, if_neg (not_le.mpr h1), if_pos h2]
  · rw [repetition_count_test, if_pos h]
  · rw [block_frequency_pvalue]
    simp only [if_pos h]

theorem param_validation_witness :
    (adaptive_proportion_test [true] 0 (1/2) = .error "APT window must be > 0") ∧
    (adaptive_proportion_test [true] 1 2 = .error "alpha must be in (0, 1)") ∧
    (repetition_count_test [true] 1 = .error "RCT cutoff must be an integer >= 2") ∧
    (block_frequency_pvalue (fun _ _ => 0) [true] (-3) = 0) :=
  ⟨(param_validation [true] 0 (1/2) 1 (-3) (fun _ _ => 0)).1 (by decide),
   (param_validation [true] 1 2 1 (-3) (fun _ _ => 0)).2.1 (by decide) (by norm_num),
   (param_validation [true] 1 (1/2) 1 (-3) (fun _ _ => 0)).2.2.1 (by decide),
   (param_validation [true] 1 (1/2) 1 (-3) (fun _ _ => 0)).2.2.2 (by decide)⟩

/-- **C4 (counterexample).** With a non-empty sequence and only the APT
window invalid, `run_tests` does not produce results for the other tests: the
whole invocation aborts with the APT parameter error. -/
theorem run_tests_apt_error_aborts_all :
    run_tests (fun _ => 1/2) (fun _ => 1/2) (fun _ _ => 1/2) (fun _ _ => 1/2)
        (fun _ => 1) (fun _ => 1) (fun _ _ => none)
        [true] 128 8 (1/100) 34 0 = .error "APT window must be > 0" := by
  rfl

/-- **C4 (amended).** On a non-empty sequence, a structurally invalid RCT
cutoff or APT window/alpha makes `run_tests` propagate the parameter error:
no result object (hence no other test's result) is produced.  With valid
health-test parameters `run_tests` returns a complete result object, whatever
the block size — an invalid block-frequency `M` never aborts the run. -/
theorem run_tests_param_error_propagates
    (p_mono p_runs : List Bool → ℚ) (p_blk : List Bool → ℤ → ℚ)
    (p_apen : List Bool → ℕ → ℚ) (entropyF : List Bool → ℚ)
    (crF : List ℕ → ℚ) (mlF : List Bool → ℤ → Option ℚ)
    (bits : List Bool) (block_size ml_k : ℤ) (alpha : ℚ)
    (rct_cutoff apt_window : ℤ) (hne : bits ≠ []) :
    ((rct_cutoff < 2 ∨ apt_window ≤ 0 ∨ ¬(0 < alpha ∧ alpha < 1)) →
      ∃ e, run_tests p_mono p_runs p_blk p_apen entropyF crF mlF
        bits block_size ml_k alpha rct_cutoff apt_window = .error e) ∧
    (2 ≤ rct_cutoff → 0 < apt_window → 0 < alpha → alpha < 1 →
      ∃ r, run_tests p_mono p_runs p_blk p_apen entropyF crF mlF
        bits block_size ml_k alpha rct_cutoff apt_window = .ok r) := by
  have hn : bits.length ≠ 0 := fun h => hne (List.eq_nil_of_length_eq_zero h)
  constructor
  · intro hbad
    rw [run_tests, run_health]
    simp only [if_neg hn]
    by_cases hcut : rct_cutoff < 2
    · rw [repetition_count_test, if_pos hcut]
      exact ⟨_, rfl⟩
    · rw [repetition_count_test, if_neg hcut]
      simp only [if_neg hn, Except.bind]
      rw [adaptive_proportion_test]
      by_cases hw : apt_window ≤ 0
      · rw [if_pos hw]; exact ⟨_, rfl⟩
      · have ha : ¬(0 < alpha ∧ alpha < 1) := by
          rcases hbad with h | h | h
          · exact absurd h hcut
          · exact absurd h hw
          · exact h
        rw [if_neg hw, if_pos ha]
        exact ⟨_, rfl⟩
  · intro hc hw ha0 ha1
    rw [run_tests, run_health]
    simp only [if_neg hn]
    rw [repetition_count_test, if_neg (not_lt.mpr hc)]
    simp only [if_neg hn, Except.bind]
    rw [adaptive_proportion_test, if_neg (not_le.mpr hw),
      if_neg (not_not_intro ⟨ha0, ha1⟩)]
    by_cases hlt : bits.length < apt_window.toNat
    · rw [if_pos hlt]; exact ⟨_, rfl⟩
    · rw [if_neg hlt]; exact ⟨_, rfl⟩

theorem run_tests_param_error_propagates_witness :
    (∃ e, run_tests (fun _ => 1/2) (fun _ => 1/2) (fun _ _ => 1/2)
      (fun _ _ => 1/2) (fun _ => 1) (fun _ => 1) (fun _ _ => none)
      [true] 128 8 (1/100) 1 512 = .error e) ∧
    (∃ r, run_tests (fun _ => 1/2) (fun _ => 1/2) (fun _ _ => 1/2)
      (fun _ _ => 1/2) (fun _ => 1) (fun _ => 1) (fun _ _ => none)
      [true] 128 8 (1/100) 34 512 = .ok r) :=
  ⟨(run_tests_param_error_propagates _ _ _ _ _ _ _ [true] 128 8 (1/100) 1 512
      (by decide)).1 (Or.inl (by decide)),
   (run_tests_param_error_propagates _ _ _ _ _ _ _ [true] 128 8 (1/100) 34 512
      (by decide)).2 (by decide) (by decide) (by norm_num) (by norm_num)⟩

end Randqa

namespace Randqa

/-! ### APT windowing (claim C6) -/

/-- **C6.** With a valid window and alpha, APT never errors; with `n < W` the
outcome is `NotRun` (`pass = none`, `n_windows = 0`, never `Fail`); with
`n ≥ W` exactly `⌊n/W⌋` windows are evaluated (trailing `n mod W` bits are
ignored by construction of `windowOnes`), the outcome is `Fail` iff some
evaluated window's one-count leaves the inclusive interval `[L, U]`, and the
violations list records the index and one-count of every violating window. -/
theorem apt_windowing (bits : List Bool) (window : ℤ) (a : ℚ)
    (hw : 0 < window) (ha0 : 0 < a) (ha1 : a < 1) :
    match adaptive_proportion_test bits window a with
    | .error _ => False
    | .ok r =>
      (bits.length < window.toNat →
        r.pass = none ∧ r.n_windows = 0 ∧ r.pass ≠ some false) ∧
      (window.toNat ≤ bits.length →
        r.n_windows = bits.length / window.toNat ∧
        r.lower = some (binom_ppf (a/2) window.toNat) ∧
        r.upper = some (binom_isf (a/2) window.toNat) ∧
        (r.pass = some false ↔
          ∃ i < bits.length / window.toNat,
            windowOnes bits window.toNat i < binom_ppf (a/2) window.toNat ∨
            binom_isf (a/2) window.toNat < windowOnes bits window.toNat i) ∧
        (∀ i < bits.length / window.toNat,
          ((i, windowOnes bits window.toNat i) ∈ r.violations ↔
            (windowOnes bits window.toNat i < binom_ppf (a/2) window.toNat ∨
             binom_isf (a/2) window.toNat < windowOnes bits window.toNat i)))) := by
  rw [adaptive_proportion_test, if_neg (not_le.mpr hw),
    if_neg (not_not_intro ⟨ha0, ha1⟩)]
  by_cases hlt : bits.length < window.toNat
  · rw [if_pos hlt]
    exact ⟨fun _ => ⟨rfl, rfl, by simp⟩, fun hge => absurd hge (not_le.mpr hlt)⟩
  · rw [if_neg hlt]
    refine ⟨fun h => absurd h hlt, fun _ => ⟨rfl, rfl, rfl, ?_, ?_⟩⟩
    · rw [Option.some.injEq, decide_eq_false_iff_not, List.filterMap_eq_nil_iff]
      push_neg
      constructor
      · rintro ⟨i, hi, hfi⟩
        refine ⟨i, List.mem_range.mp hi, ?_⟩
        by_contra hc
        rw [if_neg hc] at hfi
        exact hfi rfl
      · rintro ⟨i, hi, hc⟩
        exact ⟨i, List.mem_range.mpr hi, by rw [if_pos hc]; simp⟩
    · intro i hi
      constructor
      · intro hmem
        rcases List.mem_filterMap.mp hmem with ⟨j, _, hfj⟩
        by_cases hc : windowOnes bits window.toNat j < binom_ppf (a/2) window.toNat ∨
            binom_isf (a/2) window.toNat < windowOnes bits window.toNat j
        · rw [if_pos hc] at hfj
          obtain ⟨hji, -⟩ := Prod.mk.injEq .. ▸ Option.some.inj hfj
          exact hji ▸ hc
        · rw [if_neg hc] at hfj
          exact absurd hfj (by simp)
      · intro hc
        exact List.mem_filterMap.mpr
          ⟨i, List.mem_range.mpr hi, by rw [if_pos hc]⟩

theorem apt_windowing_witness :
    match adaptive_proportion_test [true, true, false] 2 (1/2) with
    | .error _ => False
    | .ok r =>
      ([true, true, false].length < (2 : ℤ).toNat →
        r.pass = none ∧ r.n_windows = 0 ∧ r.pass ≠ some false) ∧
      ((2 : ℤ).toNat ≤ [true, true, false].length →
        r.n_windows = [true, true, false].length / (2 : ℤ).toNat ∧
        r.lower = some (binom_ppf ((1:ℚ)/2/2) (2 : ℤ).toNat) ∧
        r.upper = some (binom_isf ((1:ℚ)/2/2) (2 : ℤ).toNat) ∧
        (r.pass = some false ↔
          ∃ i < [true, true, false].length / (2 : ℤ).toNat,
            windowOnes [true, true, false] (2 : ℤ).toNat i <
              binom_ppf ((1:ℚ)/2/2) (2 : ℤ).toNat ∨
            binom_isf ((1:ℚ)/2/2) (2 : ℤ).toNat <
              windowOnes [true, true, false] (2 : ℤ).toNat i) ∧
        (∀ i < [true, true, false].length / (2 : ℤ).toNat,
          ((i, windowOnes [true, true, false] (2 : ℤ).toNat i) ∈ r.violations ↔
            (windowOnes [true, true, false] (2 : ℤ).toNat i <
              binom_ppf ((1:ℚ)/2/2) (2 : ℤ).toNat ∨
             binom_isf ((1:ℚ)/2/2) (2 : ℤ).toNat <
              windowOnes [true, true, false] (2 : ℤ).toNat i)))) :=
  apt_windowing [true, true, false] 2 (1/2) (by decide) (by norm_num) (by norm_num)

end Randqa

namespace Randqa

/-! ### ML predictor single-class guard (claim C9) -/

theorem dedup_length_lt_two (l : List Bool)
    (h : ∀ x ∈ l, ∀ y ∈ l, x = y) : l.dedup.length < 2 := by
  by_contra hlen
  push_neg at hlen
  have h0 : (0 : ℕ) < l.dedup.length := by omega
  have h1 : (1 : ℕ) < l.dedup.length := by omega
  have hnd := l.nodup_dedup
  have hmem0 : l.dedup.get ⟨0, h0⟩ ∈ l :=
    List.mem_dedup.mp (l.dedup.get_mem 0 h0)
  have hmem1 : l.dedup.get ⟨1, h1⟩ ∈ l :=
    List.mem_dedup.mp (l.dedup.get_mem 1 h1)
  have heq := h _ hmem0 _ hmem1
  have := (List.Nodup.get_inj_iff hnd).mp heq
  simp [Fin.ext_iff] at this

theorem mem_train_labels {x : Bool} (bits : List Bool) (k : ℤ) (f : ℚ)
    (hx : x ∈ train_labels bits k f) : x ∈ bits := by
  unfold train_labels at hx
  split at hx
  · simp at hx
  · rename_i X y heq
    dsimp only at hx
    have hxy : x ∈ y := List.take_subset _ _ hx
    unfold _to_supervised at heq
    dsimp only at heq
    split at heq
    · exact absurd heq (by simp)
    rename_i hk1
    split at heq
    · exact absurd heq (by simp)
    rename_i hnk
    split at heq
    · exact absurd heq (by simp)
    rw [Option.some.injEq, Prod.mk.injEq] at heq
    obtain ⟨-, hy⟩ := heq
    rw [← hy] at hxy
    rcases List.mem_map.mp hxy with ⟨w, hw, hxw⟩
    rcases List.mem_map.mp hw with ⟨i, hi, hwi⟩
    subst hwi
    have hik : i < bits.length - k.toNat := by
      have := List.mem_range.mp hi
      omega
    have hlen : ((bits.drop i).take (k.toNat + 1)).length = k.toNat + 1 := by
      simp only [List.length_take, List.length_drop]
      omega
    have hnil : (bits.drop i).take (k.toNat + 1) ≠ [] := by
      intro hcon
      rw [hcon] at hlen
      simp at hlen
    have hlast : ((bits.drop i).take (k.toNat + 1)).getLastD false ∈
        (bits.drop i).take (k.toNat + 1) := by
      rw [List.getLastD_eq_getLast?, List.getLast?_eq_getLast _ hnil]
      exact List.getLast_mem hnil
    have hwsub : (bits.drop i).take (k.toNat + 1) ⊆ bits := by
      intro z hz
      exact List.drop_subset _ _ (List.take_subset _ _ hz)
    rw [← hxw]
    exact hwsub hlast

/-- **C9.** Whenever the training portion examined by `predictability_score`
contains only one label class, the score is "not applicable" (`none`), never a
numeric accuracy — in particular for every constant sequence. -/
theorem predictability_single_class
    (fit : List (List Bool) → List Bool → List (List Bool) → Option (List Bool))
    (bits : List Bool) (k : ℤ) (train_frac : ℚ)
    (h : ∀ x ∈ train_labels bits k train_frac,
         ∀ y ∈ train_labels bits k train_frac, x = y) :
    predictability_score fit bits k train_frac = none := by
  unfold predictability_score
  split
  · rfl
  split
  · rfl
  split
  · rfl
  rename_i X y heq
  dsimp only
  split
  · rfl
  split
  · rfl
  have hyt : List.take (Int.floor ((X.length : ℚ) * train_frac)).toNat y
      = train_labels bits k train_frac := by
    unfold train_labels
    rw [heq]
  have hone : (List.take (Int.floor ((X.length : ℚ) * train_frac)).toNat y).dedup.length < 2 := by
    apply dedup_length_lt_two
    rw [hyt]
    exact h
  rw [if_pos hone]

theorem predictability_single_class_witness :
    predictability_score (fun _ _ _ => none) (List.replicate 8 false) 3 (1/2)
      = none :=
  predictability_single_class _ _ _ _ (fun x hx y hy => by
    rw [List.eq_of_mem_replicate (mem_train_labels _ _ _ hx),
        List.eq_of_mem_replicate (mem_train_labels _ _ _ hy)])

end Randqa

namespace Randqa

/-! ### BH-FDR q-value properties (claim C2) -/

theorem foldr_min_le_init (l : List ℚ) (b : ℚ) : l.foldr min b ≤ b := by
  induction l with
  | nil => exact le_refl b
  | cons a t ih => exact le_trans (min_le_right _ _) ih

theorem le_foldr_min (c b : ℚ) (l : List ℚ) (hb : c ≤ b)
    (h : ∀ v ∈ l, c ≤ v) : c ≤ l.foldr min b := by
  induction l with
  | nil => exact hb
  | cons a t ih =>
    exact le_min (h a (List.mem_cons_self a t))
      (ih fun v hv => h v (List.mem_cons_of_mem _ hv))

theorem foldr_min_drop_le (vals : List ℚ) (j j' : ℕ) (h : j ≤ j') :
    (vals.drop j').foldr min 1 ≥ (vals.drop j).foldr min 1 := by
  have hidx : j + (j' - j) = j' := by omega
  have hsplit : vals.drop j = (vals.drop j).take (j' - j) ++ vals.drop j' := by
    conv_lhs => rw [← List.take_append_drop (j' - j) (vals.drop j)]
    rw [List.drop_drop, hidx]
  rw [ge_iff_le, hsplit, List.foldr_append]
  exact foldr_min_le_init _ _

theorem le_mul_div (p : ℚ) (m i : ℕ) (hp : 0 ≤ p) (hi : 0 < i) (him : i ≤ m) :
    p ≤ p * m / (i : ℚ) := by
  rw [le_div_iff₀ (by exact_mod_cast hi)]
  exact mul_le_mul_of_nonneg_left (by exact_mod_cast him) hp

theorem bh_raw_length (m : ℕ) (l : List (String × ℚ)) (i : ℕ) :
    (bh_raw m l i).length = l.length := by
  induction l generalizing i with
  | nil => rfl
  | cons a t ih => obtain ⟨k, p⟩ := a; simp [bh_raw, ih]

theorem bh_step_up_length (l : List (String × ℚ)) :
    (bh_step_up l).length = l.length := by
  induction l with
  | nil => rfl
  | cons a t ih => obtain ⟨k, p⟩ := a; simp [bh_step_up, ih]

theorem bh_raw_map_fst (m : ℕ) (l : List (String × ℚ)) (i : ℕ) :
    (bh_raw m l i).map Prod.fst = l.map Prod.fst := by
  induction l generalizing i with
  | nil => rfl
  | cons a t ih => obtain ⟨k, p⟩ := a; simp [bh_raw, ih]

theorem bh_step_up_map_fst (l : List (String × ℚ)) :
    (bh_step_up l).map Prod.fst = l.map Prod.fst := by
  induction l with
  | nil => rfl
  | cons a t ih => obtain ⟨k, p⟩ := a; simp [bh_step_up, ih]

theorem bh_raw_get (m : ℕ) (l : List (String × ℚ)) (i : ℕ) (j : ℕ)
    (hj : j < l.length) (hj2 : j < (bh_raw m l i).length) :
    (bh_raw m l i).get ⟨j, hj2⟩ =
      ((l.get ⟨j, hj⟩).1,
        min ((l.get ⟨j, hj⟩).2 * m / ((i + j : ℕ) : ℚ)) 1) := by
  induction l generalizing i j with
  | nil => exact absurd hj (by simp)
  | cons a t ih =>
    obtain ⟨k, p⟩ := a
    cases j with
    | zero => simp [bh_raw]
    | succ j2 =>
      have ht : j2 < t.length := by simpa using hj
      have ht2 : j2 < (bh_raw m t (i + 1)).length := by
        rw [bh_raw_length]; exact ht
      show (bh_raw m t (i + 1)).get ⟨j2, ht2⟩ = _
      rw [ih (i + 1) j2 ht ht2, List.get_cons_succ,
        show i + 1 + j2 = i + (j2 + 1) from by omega]

theorem bh_tail_min_step_up (t : List (String × ℚ)) :
    bh_tail_min (bh_step_up t) = (t.map Prod.snd).foldr min 1 := by
  induction t with
  | nil => rfl
  | cons a t ih =>
    obtain ⟨k, q⟩ := a
    simp only [bh_step_up]
    rw [ih]
    simp [bh_tail_min]

theorem bh_step_up_get (l : List (String × ℚ)) (j : ℕ)
    (hj : j < l.length) (hj2 : j < (bh_step_up l).length) :
    (bh_step_up l).get ⟨j, hj2⟩ =
      ((l.get ⟨j, hj⟩).1, ((l.map Prod.snd).drop j).foldr min 1) := by
  induction l generalizing j with
  | nil => exact absurd hj (by simp)
  | cons a t ih =>
    obtain ⟨k, q⟩ := a
    cases j with
    | zero =>
      show (k, min q (bh_tail_min (bh_step_up t))) = _
      rw [bh_tail_min_step_up]
      simp
    | succ j2 =>
      have ht : j2 < t.length := by simpa using hj
      have ht2 : j2 < (bh_step_up t).length := by
        rw [bh_step_up_length]; exact ht
      show (bh_step_up t).get ⟨j2, ht2⟩ = _
      rw [ih j2 ht ht2, List.get_cons_succ]
      simp

/-- Each q-value of the sorted pipeline dominates its own raw p-value. -/
theorem bh_q_ge_p (s : List (String × ℚ)) (m : ℕ) (hm : s.length ≤ m)
    (hsort : s.Pairwise (fun a b => a.2 ≤ b.2))
    (hrange : ∀ e ∈ s, 0 ≤ e.2 ∧ e.2 ≤ 1)
    (j : ℕ) (hj : j < s.length) :
    (s.get ⟨j, hj⟩).2 ≤ (((bh_raw m s 1).map Prod.snd).drop j).foldr min 1 := by
  apply le_foldr_min
  · exact (hrange _ (s.get_mem j hj)).2
  · intro v hv
    rcases List.mem_iff_get.mp hv with ⟨⟨t, ht⟩, hvt⟩
    have hmaplen : ((bh_raw m s 1).map Prod.snd).length = s.length := by
      rw [List.length_map, bh_raw_length]
    have hjt : j + t < s.length := by
      rw [List.length_drop, hmaplen] at ht
      omega
    have hjt2 : j + t < ((bh_raw m s 1).map Prod.snd).length := by
      rw [hmaplen]; exact hjt
    rw [← List.get_drop _ hjt2] at hvt
    rw [List.get_map] at hvt
    have hjr : j + t < (bh_raw m s 1).length := by
      rw [bh_raw_length]; exact hjt
    rw [show (⟨j + t, by simpa using hjt2⟩ : Fin (bh_raw m s 1).length)
        = ⟨j + t, hjr⟩ from rfl] at hvt
    rw [bh_raw_get m s 1 (j + t) hjt hjr] at hvt
    rw [← hvt]
    dsimp only
    apply le_min
    · have hple : (s.get ⟨j, hj⟩).2 ≤ (s.get ⟨j + t, hjt⟩).2 := by
        rcases Nat.eq_zero_or_pos t with rfl | htpos
        · exact le_of_eq (by congr 1)
        · exact List.pairwise_iff_get.mp hsort ⟨j, hj⟩ ⟨j + t, hjt⟩
            (by simp; omega)
      have hp2 : 0 ≤ (s.get ⟨j + t, hjt⟩).2 := (hrange _ (s.get_mem _ hjt)).1
      have hdiv : (s.get ⟨j + t, hjt⟩).2 ≤
          (s.get ⟨j + t, hjt⟩).2 * m / ((1 + (j + t) : ℕ) : ℚ) :=
        le_mul_div _ m (1 + (j + t)) hp2 (by omega) (by omega)
      exact le_trans hple hdiv
    · exact (hrange _ (s.get_mem j hj)).2

theorem lookup_map_keyed {β γ : Type} (l : List (String × β)) (f : String → γ)
    (k : String) (hk : k ∈ l.map Prod.fst) (hnd : (l.map Prod.fst).Nodup) :
    (l.map fun kv => (kv.1, f kv.1)).lookup k = some (f k) := by
  induction l with
  | nil => simp at hk
  | cons a t ih =>
    obtain ⟨k0, v0⟩ := a
    by_cases hkk : k = k0
    · subst hkk
      simp [List.lookup]
    · rw [List.map_cons]
      simp only [List.lookup, beq_eq_false_iff_ne.mpr hkk]
      refine ih ?_ ?_
      · rcases List.mem_cons.mp hk with h | h
        · exact absurd h hkk
        · exact h
      · exact (List.nodup_cons.mp hnd).2

theorem lookup_self_get {β : Type} (l : List (String × β))
    (hnd : (l.map Prod.fst).Nodup) (j : ℕ) (hj : j < l.length) :
    l.lookup (l.get ⟨j, hj⟩).1 = some (l.get ⟨j, hj⟩).2 := by
  induction l generalizing j with
  | nil => simp at hj
  | cons a t ih =>
    obtain ⟨k0, v0⟩ := a
    cases j with
    | zero => simp [List.lookup]
    | succ j2 =>
      have ht : j2 < t.length := by simpa using hj
      rw [List.get_cons_succ]
      have hne : (t.get ⟨j2, ht⟩).1 ≠ k0 := by
        intro hcon
        have hk0 : k0 ∉ t.map Prod.fst := (List.nodup_cons.mp hnd).1
        exact hk0 (hcon ▸ List.mem_map_of_mem Prod.fst (t.get_mem _ ht))
      simp only [List.lookup, beq_eq_false_iff_ne.mpr hne]
      exact ih (List.nodup_cons.mp hnd).2 j2 ht

theorem filterMap_some_pairs (pdict : List (String × ℚ)) :
    (pdict.map fun kv => (kv.1, some kv.2)).filterMap
      (fun kv => kv.2.map fun p => (kv.1, p)) = pdict := by
  induction pdict with
  | nil => rfl
  | cons a t ih =>
    obtain ⟨k, p⟩ := a
    simp [List.filterMap_cons, ih]

end Randqa

namespace Randqa

/-- **C2.** For every finite map from test names to p-values in `[0,1]`:
every name is assigned a q-value by `benjamini_hochberg`, each q-value is
`≤ 1` and `≥` its own raw p-value, and the q-values are monotone
non-decreasing along the ascending-raw-p-value order (the stable sort the
procedure itself computes). -/
theorem bh_fdr_qvalues (pdict : List (String × ℚ))
    (hnodup : (pdict.map Prod.fst).Nodup)
    (hrange : ∀ e ∈ pdict, 0 ≤ e.2 ∧ e.2 ≤ 1) :
    (∀ kv ∈ pdict, ∃ q : ℚ,
      (benjamini_hochberg (pdict.map fun kv2 => (kv2.1, some kv2.2))).lookup kv.1
        = some (some q) ∧ kv.2 ≤ q ∧ q ≤ 1) ∧
    (∀ (j j' : ℕ)
      (hj : j < (pdict.mergeSort fun a b => decide (a.2 ≤ b.2)).length)
      (hj' : j' < (pdict.mergeSort fun a b => decide (a.2 ≤ b.2)).length),
      j ≤ j' → ∀ q q',
      (benjamini_hochberg (pdict.map fun kv2 => (kv2.1, some kv2.2))).lookup
          ((pdict.mergeSort fun a b => decide (a.2 ≤ b.2)).get ⟨j, hj⟩).1
        = some (some q) →
      (benjamini_hochberg (pdict.map fun kv2 => (kv2.1, some kv2.2))).lookup
          ((pdict.mergeSort fun a b => decide (a.2 ≤ b.2)).get ⟨j', hj'⟩).1
        = some (some q') →
      q ≤ q') := by
  have hout : benjamini_hochberg (pdict.map fun kv => (kv.1, some kv.2)) =
      if pdict.length = 0 then [] else
      (pdict.map fun kv => (kv.1, some kv.2)).map fun kv =>
        (kv.1, (bh_step_up (bh_raw pdict.length
          (pdict.mergeSort fun a b => decide (a.2 ≤ b.2)) 1)).lookup kv.1) := by
    simp only [benjamini_hochberg]
    rw [filterMap_some_pairs]
  by_cases hemp : pdict = []
  · subst hemp
    constructor
    · intro kv hkv
      simp at hkv
    · intro j j' hj hj' _ q q' _ _
      simp [List.mergeSort_nil] at hj
  · have hm0 : pdict.length ≠ 0 := fun h => hemp (List.eq_nil_of_length_eq_zero h)
    set s := pdict.mergeSort fun a b => decide (a.2 ≤ b.2) with hsdef
    have hperm : s.Perm pdict := List.mergeSort_perm pdict _
    have hslen : s.length = pdict.length := hperm.length_eq
    have hsnodup : (s.map Prod.fst).Nodup :=
      (hperm.map Prod.fst).nodup_iff.mpr hnodup
    have hsrange : ∀ e ∈ s, 0 ≤ e.2 ∧ e.2 ≤ 1 :=
      fun e he => hrange e (hperm.subset he)
    have hsort : s.Pairwise fun a b => a.2 ≤ b.2 := by
      have h1 := @List.sorted_mergeSort (String × ℚ)
        (fun a b => decide (a.2 ≤ b.2))
        (fun a b c hab hbc => by
          simp only [decide_eq_true_eq] at *
          exact le_trans hab hbc)
        (fun a b => by
          simp only [Bool.or_eq_true, decide_eq_true_eq]
          exact le_total a.2 b.2)
        pdict
      rw [hsdef]
      exact h1.imp fun h => of_decide_eq_true h
    have hqs_fst : (bh_step_up (bh_raw pdict.length s 1)).map Prod.fst
        = s.map Prod.fst := by
      rw [bh_step_up_map_fst, bh_raw_map_fst]
    have hqs_len : (bh_step_up (bh_raw pdict.length s 1)).length = s.length := by
      rw [bh_step_up_length, bh_raw_length]
    have hqs_nodup : ((bh_step_up (bh_raw pdict.length s 1)).map Prod.fst).Nodup := by
      rw [hqs_fst]; exact hsnodup
    have hlook : ∀ (j : ℕ) (hj : j < s.length),
        (benjamini_hochberg (pdict.map fun kv2 => (kv2.1, some kv2.2))).lookup
            (s.get ⟨j, hj⟩).1
          = some (some ((((bh_raw pdict.length s 1).map Prod.snd).drop j).foldr min 1)) := by
      intro j hj
      rw [hout, if_neg hm0]
      have hkmem : (s.get ⟨j, hj⟩).1 ∈
          (pdict.map fun kv => (kv.1, some kv.2)).map Prod.fst := by
        have hmm : (s.get ⟨j, hj⟩).1 ∈ pdict.map Prod.fst :=
          List.mem_map_of_mem Prod.fst (hperm.subset (s.get_mem j hj))
        simpa [List.map_map, Function.comp] using hmm
      have hnd2 : ((pdict.map fun kv => (kv.1, some kv.2)).map Prod.fst).Nodup := by
        simpa [List.map_map, Function.comp] using hnodup
      have hlm : (List.map
          (fun kv => (kv.1,
            List.lookup kv.1 (bh_step_up (bh_raw pdict.length s 1))))
          (pdict.map fun kv => (kv.1, some kv.2))).lookup (s.get ⟨j, hj⟩).1
          = some (List.lookup (s.get ⟨j, hj⟩).1
              (bh_step_up (bh_raw pdict.length s 1))) :=
        lookup_map_keyed _
          (fun k2 => List.lookup k2 (bh_step_up (bh_raw pdict.length s 1)))
          _ hkmem hnd2
      rw [hlm]
      congr 1
      have hjr : j < (bh_raw pdict.length s 1).length := by
        rw [bh_raw_length]; exact hj
      have hjq : j < (bh_step_up (bh_raw pdict.length s 1)).length := by
        rw [hqs_len]; exact hj
      have hget : (bh_step_up (bh_raw pdict.length s 1)).get ⟨j, hjq⟩ =
          ((s.get ⟨j, hj⟩).1,
            (((bh_raw pdict.length s 1).map Prod.snd).drop j).foldr min 1) := by
        rw [bh_step_up_get _ j hjr hjq, bh_raw_get pdict.length s 1 j hj hjr]
      have hl := lookup_self_get _ hqs_nodup j hjq
      rw [hget] at hl
      exact hl
    constructor
    · intro kv hkv
      obtain ⟨k1, p1⟩ := kv
      obtain ⟨⟨j, hj⟩, hget⟩ := List.mem_iff_get.mp (hperm.mem_iff.mpr hkv)
      refine ⟨(((bh_raw pdict.length s 1).map Prod.snd).drop j).foldr min 1,
        ?_, ?_, ?_⟩
      · have h1 := hlook j hj
        rw [hget] at h1
        exact h1
      · have h1 := bh_q_ge_p s pdict.length (le_of_eq hslen) hsort hsrange j hj
        rw [hget] at h1
        exact h1
      · exact foldr_min_le_init _ _
    · intro j j' hj hj' hjj q q' hq hq'
      have e1 := hlook j hj
      have e2 := hlook j' hj'
      rw [hq] at e1
      rw [hq'] at e2
      simp only [Option.some.injEq] at e1 e2
      rw [e1, e2]
      exact foldr_min_drop_le _ j j' hjj

theorem bh_fdr_qvalues_witness :
    (∀ kv ∈ ([("a", (1:ℚ)/100), ("b", 1/20), ("c", 1/10)] : List (String × ℚ)),
      ∃ q : ℚ,
      (benjamini_hochberg (([("a", (1:ℚ)/100), ("b", 1/20), ("c", 1/10)] :
          List (String × ℚ)).map fun kv2 => (kv2.1, some kv2.2))).lookup kv.1
        = some (some q) ∧ kv.2 ≤ q ∧ q ≤ 1) ∧
    (∀ (j j' : ℕ)
      (hj : j < (([("a", (1:ℚ)/100), ("b", 1/20), ("c", 1/10)] :
        List (String × ℚ)).mergeSort fun a b => decide (a.2 ≤ b.2)).length)
      (hj' : j' < (([("a", (1:ℚ)/100), ("b", 1/20), ("c", 1/10)] :
        List (String × ℚ)).mergeSort fun a b => decide (a.2 ≤ b.2)).length),
      j ≤ j' → ∀ q q',
      (benjamini_hochberg (([("a", (1:ℚ)/100), ("b", 1/20), ("c", 1/10)] :
          List (String × ℚ)).map fun kv2 => (kv2.1, some kv2.2))).lookup
          ((([("a", (1:ℚ)/100), ("b", 1/20), ("c", 1/10)] :
            List (String × ℚ)).mergeSort fun a b => decide (a.2 ≤ b.2)).get
              ⟨j, hj⟩).1
        = some (some q) →
      (benjamini_hochberg (([("a", (1:ℚ)/100), ("b", 1/20), ("c", 1/10)] :
          List (String × ℚ)).map fun kv2 => (kv2.1, some kv2.2))).lookup
          ((([("a", (1:ℚ)/100), ("b", 1/20), ("c", 1/10)] :
            List (String × ℚ)).mergeSort fun a b => decide (a.2 ≤ b.2)).get
              ⟨j', hj'⟩).1
        = some (some q') →
      q ≤ q') :=
  bh_fdr_qvalues [("a", (1:ℚ)/100), ("b", 1/20), ("c", 1/10)]
    (by simp)
    (by intro e he; fin_cases he <;> constructor <;> norm_num)

end Randqa

namespace Randqa

/-! ### Overall verdict (claim C1) -/

theorem not_failed_iff (x : Option Bool) : not_failed x = true ↔ x ≠ some false := by
  cases x with
  | none => simp [not_failed]
  | some b => cases b <;> simp [not_failed]

/-- **C1.** Whenever `run_tests` produces a result, its overall verdict is
true iff no p-value test is rejected under FDR (rejection means the BH
q-value is `≤ α`), the RCT outcome is not `Fail`, and the APT outcome is not
`Fail`; a `NotRun` health-test outcome (`pass = none`) never blocks the
overall pass. -/
theorem run_tests_overall_verdict
    (p_mono p_runs : List Bool → ℚ) (p_blk : List Bool → ℤ → ℚ)
    (p_apen : List Bool → ℕ → ℚ) (entropyF : List Bool → ℚ)
    (crF : List ℕ → ℚ) (mlF : List Bool → ℤ → Option ℚ)
    (bits : List Bool) (block_size ml_k : ℤ) (alpha : ℚ)
    (rct_cutoff apt_window : ℤ) :
    match run_tests p_mono p_runs p_blk p_apen entropyF crF mlF
        bits block_size ml_k alpha rct_cutoff apt_window with
    | .error _ => True
    | .ok r =>
      (r.decisions.overall_pass_fdr = true ↔
        ((∀ kq ∈ r.pvals_fdr, ∀ q : ℚ, kq.2 = some q → alpha < q) ∧
         r.rct.pass ≠ some false ∧ r.apt.pass ≠ some false)) := by
  unfold run_tests
  cases hE : run_health bits alpha rct_cutoff apt_window with
  | error e => exact trivial
  | ok hp =>
    obtain ⟨rct, apt⟩ := hp
    show _ ↔ _
    constructor
    · intro hov
      simp only [Bool.and_eq_true, Bool.not_eq_true'] at hov
      obtain ⟨⟨hA, hB⟩, hC⟩ := hov
      refine ⟨?_, (not_failed_iff _).mp hB, (not_failed_iff _).mp hC⟩
      intro kq hkq qv hqv
      rw [List.any_eq_false] at hA
      have h2 := hA _ (List.mem_map_of_mem _ hkq)
      simp only at h2
      rw [hqv] at h2
      simpa using h2
    · rintro ⟨h1, h2, h3⟩
      simp only [Bool.and_eq_true, Bool.not_eq_true']
      refine ⟨⟨?_, (not_failed_iff _).mpr h2⟩, (not_failed_iff _).mpr h3⟩
      rw [List.any_eq_false]
      intro x hx
      rcases List.mem_map.mp hx with ⟨kq, hkq, rfl⟩
      simp only
      cases hkq2 : kq.2 with
      | none => simp
      | some qv =>
        have := h1 kq hkq qv hkq2
        simp [decide_eq_false (not_le.mpr this)]

end Randqa

namespace Randqa

/-! ### The two frequency tests (claim C10) -/

theorem sum_pm_one (bits : List Bool) :
    (bits.map fun b => if b then (1 : ℤ) else -1).sum
      = 2 * (ones bits : ℤ) - bits.length := by
  induction bits with
  | nil => simp [ones]
  | cons b t ih =>
    cases b <;>
      simp only [ones, List.count_cons, List.map_cons, List.sum_cons, ih,
        List.length_cons] <;>
      simp [ones] <;> push_cast <;> ring

/-- **C10.** On every non-empty sequence `mono_bit_pvalue` (the variant
`run_tests` uses) and `monobit_pvalue` agree, both equal to
`erfc(|ones − zeros| / sqrt(2n))`; on the empty sequence they differ:
`mono_bit_pvalue [] = 1.0` while `monobit_pvalue [] = 0.0`. -/
theorem mono_bit_monobit_equiv (erfc : ℝ → ℝ) (bits : List Bool) :
    (bits ≠ [] →
      mono_bit_pvalue erfc bits = monobit_pvalue erfc bits ∧
      mono_bit_pvalue erfc bits =
        erfc (|((ones bits : ℝ) - ((bits.length - ones bits : ℕ) : ℝ))| /
          Real.sqrt (2 * bits.length))) ∧
    mono_bit_pvalue erfc [] = 1 ∧
    monobit_pvalue erfc [] = 0 := by
  refine ⟨?_, by simp [mono_bit_pvalue], by simp [monobit_pvalue]⟩
  intro hne
  have hn : bits.length ≠ 0 := fun h => hne (List.eq_nil_of_length_eq_zero h)
  have hcount : ones bits ≤ bits.length := List.count_le_length _ _
  have hzcast : ((bits.length - ones bits : ℕ) : ℝ)
      = (bits.length : ℝ) - (ones bits : ℝ) := Nat.cast_sub hcount
  have harg : |(((ones bits : ℝ) - ((bits.length - ones bits : ℕ) : ℝ)) /
        Real.sqrt bits.length)| / Real.sqrt 2
      = |((ones bits : ℝ) - ((bits.length - ones bits : ℕ) : ℝ))| /
        Real.sqrt (2 * bits.length) := by
    rw [abs_div, abs_of_nonneg (Real.sqrt_nonneg _), div_div,
      Real.sqrt_mul (by norm_num : (0:ℝ) ≤ 2), mul_comm]
  have hmono : mono_bit_pvalue erfc bits =
      erfc (|((ones bits : ℝ) - ((bits.length - ones bits : ℕ) : ℝ))| /
        Real.sqrt (2 * bits.length)) := by
    simp only [mono_bit_pvalue, if_neg hn]
    exact congrArg erfc harg
  have hmb : monobit_pvalue erfc bits =
      erfc (|((ones bits : ℝ) - ((bits.length - ones bits : ℕ) : ℝ))| /
        Real.sqrt (2 * bits.length)) := by
    simp only [monobit_pvalue, if_neg hn]
    congr 2
    rw [sum_pm_one, hzcast]
    push_cast
    ring
  exact ⟨hmono.trans hmb.symm, hmono⟩

theorem mono_bit_monobit_equiv_witness :
    (mono_bit_pvalue (fun x => x) [true] = monobit_pvalue (fun x => x) [true] ∧
     mono_bit_pvalue (fun x => x) [true] =
       (|((ones [true] : ℝ) - (([true].length - ones [true] : ℕ) : ℝ))| /
         Real.sqrt (2 * [true].length))) ∧
    mono_bit_pvalue (fun x => x) ([] : List Bool) = 1 ∧
    monobit_pvalue (fun x => x) ([] : List Bool) = 0 :=
  ⟨(mono_bit_monobit_equiv (fun x => x) [true]).1 (by simp),
   (mono_bit_monobit_equiv (fun x => x) []).2.1,
   (mono_bit_monobit_equiv (fun x => x) []).2.2⟩

end Randqa

namespace Randqa

/-! ### p-values lie in [0,1] (claim C7) -/

/-- **C7.** For every bit sequence and every valid parameter choice
(`M ≥ 1` reaches the gamma branch, `m ≥ 1` as the source requires for
`1 << (m-1)`), all four p-value tests return values in `[0, 1]`, given that
the library routines `erfc` (on `[0,∞)`) and `gammaincc` (on positive shape,
non-negative argument) take values in `[0, 1]`. -/
theorem pvalues_in_unit_interval (erfc : ℝ → ℝ) (gammaincc : ℝ → ℝ → ℝ)
    (herfc : ∀ x : ℝ, 0 ≤ x → 0 ≤ erfc x ∧ erfc x ≤ 1)
    (hg : ∀ a x : ℝ, 0 < a → 0 ≤ x → 0 ≤ gammaincc a x ∧ gammaincc a x ≤ 1)
    (bits : List Bool) (M : ℤ) (m : ℕ) (hm : 1 ≤ m) :
    (0 ≤ runs_pvalue erfc bits ∧ runs_pvalue erfc bits ≤ 1) ∧
    (0 ≤ mono_bit_pvalue erfc bits ∧ mono_bit_pvalue erfc bits ≤ 1) ∧
    (0 ≤ block_frequency_pvalue gammaincc bits M ∧
      block_frequency_pvalue gammaincc bits M ≤ 1) ∧
    (0 ≤ approximate_entropy_pvalue gammaincc bits m ∧
      approximate_entropy_pvalue gammaincc bits m ≤ 1) := by
  refine ⟨?_, ?_, ?_, ?_⟩
  · -- runs test
    simp only [runs_pvalue]
    by_cases h2 : bits.length < 2
    · rw [if_pos h2]; norm_num
    rw [if_neg h2]
    by_cases hguard : (ones bits : ℝ) / bits.length = 0 ∨
        (ones bits : ℝ) / bits.length = 1 ∨
        2 / Real.sqrt bits.length ≤ |(ones bits : ℝ) / bits.length - 1/2|
    · rw [if_pos hguard]; norm_num
    rw [if_neg hguard]
    push_neg at hguard
    obtain ⟨h0, h1, -⟩ := hguard
    have hlen : (0:ℝ) < bits.length := by
      have : 2 ≤ bits.length := not_lt.mp h2
      exact_mod_cast Nat.lt_of_lt_of_le (by norm_num) this
    have hpi0 : 0 ≤ (ones bits : ℝ) / bits.length :=
      div_nonneg (Nat.cast_nonneg _) (le_of_lt hlen)
    have hpile : (ones bits : ℝ) / bits.length ≤ 1 := by
      rw [div_le_one hlen]
      exact_mod_cast List.count_le_length true bits
    have hpipos : 0 < (ones bits : ℝ) / bits.length := lt_of_le_of_ne hpi0 (Ne.symm h0)
    have hpilt : (ones bits : ℝ) / bits.length < 1 := lt_of_le_of_ne hpile h1
    have hdenom : 0 < 2 * Real.sqrt (2 * bits.length) *
        ((ones bits : ℝ) / bits.length) * (1 - (ones bits : ℝ) / bits.length) := by
      have hs : 0 < Real.sqrt (2 * bits.length) :=
        Real.sqrt_pos.mpr (by positivity)
      have h1pi : 0 < 1 - (ones bits : ℝ) / bits.length := by linarith
      positivity
    rw [if_neg (ne_of_gt hdenom)]
    exact herfc _ (div_nonneg (abs_nonneg _) (le_of_lt hdenom))
  · -- mono-bit test
    simp only [mono_bit_pvalue]
    by_cases h0 : bits.length = 0
    · rw [if_pos h0]; norm_num
    rw [if_neg h0]
    exact herfc _ (div_nonneg (abs_nonneg _) (Real.sqrt_nonneg _))
  · -- block-frequency test
    simp only [block_frequency_pvalue]
    by_cases hM : M ≤ 0
    · rw [if_pos hM]; norm_num
    rw [if_neg hM]
    by_cases hN : bits.length / M.toNat = 0
    · rw [if_pos hN]; norm_num
    rw [if_neg hN]
    apply hg
    · have : 1 ≤ bits.length / M.toNat := Nat.one_le_iff_ne_zero.mpr hN
      have h1 : (1:ℝ) ≤ (bits.length / M.toNat : ℕ) := by exact_mod_cast this
      linarith
    · have hM' : (0:ℝ) ≤ (M : ℝ) := by
        have : 0 < M := lt_of_not_le hM
        exact_mod_cast le_of_lt this
      have hsum : 0 ≤ ((((List.range (bits.length / M.toNat)).map fun i =>
            ((((bits.drop (i * M.toNat)).take M.toNat).count true : ℝ) /
              (M.toNat : ℝ))).map fun p => (p - 1/2) ^ 2).sum) :=
        List.sum_nonneg (by
          intro x hx
          rcases List.mem_map.mp hx with ⟨p, -, rfl⟩
          exact sq_nonneg _)
      exact div_nonneg (mul_nonneg (mul_nonneg (by norm_num) hM') hsum)
        (by norm_num)
  · -- approximate-entropy test
    simp only [approximate_entropy_pvalue]
    by_cases hn : bits.length ≤ m + 1
    · rw [if_pos hn]; norm_num
    rw [if_neg hn]
    apply hg
    · have : (0:ℝ) < 2 ^ (m - 1) := by positivity
      exact_mod_cast this
    · have hmax : (0:ℝ) ≤ max 0 (Real.log 2 -
          (phi bits m - phi bits (m + 1))) := le_max_left _ _
      have hn0 : (0:ℝ) ≤ (bits.length : ℝ) := Nat.cast_nonneg _
      have := mul_nonneg (mul_nonneg (by norm_num : (0:ℝ) ≤ 2) hn0) hmax
      linarith

end Randqa

namespace Randqa

theorem pvalues_in_unit_interval_witness :
    (0 ≤ runs_pvalue (fun _ => (1:ℝ)/2) [true, false] ∧
      runs_pvalue (fun _ => (1:ℝ)/2) [true, false] ≤ 1) ∧
    (0 ≤ mono_bit_pvalue (fun _ => (1:ℝ)/2) [true, false] ∧
      mono_bit_pvalue (fun _ => (1:ℝ)/2) [true, false] ≤ 1) ∧
    (0 ≤ block_frequency_pvalue (fun _ _ => (1:ℝ)/2) [true, false] 1 ∧
      block_frequency_pvalue (fun _ _ => (1:ℝ)/2) [true, false] 1 ≤ 1) ∧
    (0 ≤ approximate_entropy_pvalue (fun _ _ => (1:ℝ)/2) [true, false] 2 ∧
      approximate_entropy_pvalue (fun _ _ => (1:ℝ)/2) [true, false] 2 ≤ 1) :=
  pvalues_in_unit_interval _ _
    (fun x hx => by norm_num)
    (fun a x ha hx => by norm_num)
    [true, false] 1 2 (by norm_num)

/-! ### Runs test formula (claim C5) -/

/-- **C5.** `runs_pvalue` returns `0.0` whenever the precondition
`|π − 0.5| < 2/√n` fails — the all-zero (`π = 0`) and all-one (`π = 1`) cases
count as failures — and otherwise returns
`erfc(|V − 2nπ(1−π)| / (2·√(2n)·π·(1−π)))` with `V = transitions + 1`. -/
theorem runs_pvalue_formula (erfc : ℝ → ℝ) (bits : List Bool) :
    (¬((ones bits : ℝ) / bits.length ≠ 0 ∧
        (ones bits : ℝ) / bits.length ≠ 1 ∧
        |(ones bits : ℝ) / bits.length - 1/2| < 2 / Real.sqrt bits.length) →
      runs_pvalue erfc bits = 0) ∧
    (((ones bits : ℝ) / bits.length ≠ 0 ∧
        (ones bits : ℝ) / bits.length ≠ 1 ∧
        |(ones bits : ℝ) / bits.length - 1/2| < 2 / Real.sqrt bits.length) →
      runs_pvalue erfc bits =
        erfc (|((transitions bits : ℝ) + 1) -
            2 * bits.length * ((ones bits : ℝ) / bits.length) *
              (1 - (ones bits : ℝ) / bits.length)| /
          (2 * Real.sqrt (2 * bits.length) * ((ones bits : ℝ) / bits.length) *
            (1 - (ones bits : ℝ) / bits.length)))) := by
  constructor
  · intro hnp
    simp only [runs_pvalue]
    by_cases h2 : bits.length < 2
    · rw [if_pos h2]
    rw [if_neg h2]
    have hguard : (ones bits : ℝ) / bits.length = 0 ∨
        (ones bits : ℝ) / bits.length = 1 ∨
        2 / Real.sqrt bits.length ≤ |(ones bits : ℝ) / bits.length - 1/2| := by
      by_contra hgc
      push_neg at hgc
      exact hnp ⟨hgc.1, hgc.2.1, hgc.2.2⟩
    rw [if_pos hguard]
  · rintro ⟨h0, h1, hlt⟩
    have hn2 : ¬(bits.length < 2) := by
      intro hlt2
      have hcases : bits.length = 0 ∨ bits.length = 1 := by omega
      rcases hcases with h | h
      · exact h0 (by rw [h]; simp)
      · have ho := List.count_le_length true bits
        rw [h] at ho
        have : ones bits = 0 ∨ ones bits = 1 := by
          have : List.count true bits = 0 ∨ List.count true bits = 1 := by omega
          exact this
        rcases this with ho0 | ho1
        · exact h0 (by rw [ho0, h]; simp)
        · exact h1 (by rw [ho1, h]; simp)
    simp only [runs_pvalue]
    rw [if_neg hn2]
    rw [if_neg (by
      rintro (h | h | h)
      · exact h0 h
      · exact h1 h
      · exact absurd hlt (not_lt.mpr h))]
    have hlen : (0:ℝ) < bits.length := by
      have : 2 ≤ bits.length := not_lt.mp hn2
      exact_mod_cast Nat.lt_of_lt_of_le (by norm_num) this
    have hpi0 : 0 ≤ (ones bits : ℝ) / bits.length :=
      div_nonneg (Nat.cast_nonneg _) (le_of_lt hlen)
    have hpile : (ones bits : ℝ) / bits.length ≤ 1 := by
      rw [div_le_one hlen]
      exact_mod_cast List.count_le_length true bits
    have hpipos : 0 < (ones bits : ℝ) / bits.length :=
      lt_of_le_of_ne hpi0 (Ne.symm h0)
    have hpilt : (ones bits : ℝ) / bits.length < 1 := lt_of_le_of_ne hpile h1
    have hdenom : 0 < 2 * Real.sqrt (2 * bits.length) *
        ((ones bits : ℝ) / bits.length) *
        (1 - (ones bits : ℝ) / bits.length) := by
      have hs : 0 < Real.sqrt (2 * bits.length) :=
        Real.sqrt_pos.mpr (by positivity)
      have h1pi : 0 < 1 - (ones bits : ℝ) / bits.length := by linarith
      positivity
    rw [if_neg (ne_of_gt hdenom)]

theorem runs_pvalue_formula_witness :
    runs_pvalue (fun x => x) [true, false, true, false] =
      (|((transitions [true, false, true, false] : ℝ) + 1) -
          2 * [true, false, true, false].length *
            ((ones [true, false, true, false] : ℝ) /
              [true, false, true, false].length) *
            (1 - (ones [true, false, true, false] : ℝ) /
              [true, false, true, false].length)| /
        (2 * Real.sqrt (2 * [true, false, true, false].length) *
          ((ones [true, false, true, false] : ℝ) /
            [true, false, true, false].length) *
          (1 - (ones [true, false, true, false] : ℝ) /
            [true, false, true, false].length))) := by
  have hones : ones [true, false, true, false] = 2 := by decide
  have hlen : [true, false, true, false].length = 4 := by decide
  refine (runs_pvalue_formula (fun x => x) [true, false, true, false]).2 ⟨?_, ?_, ?_⟩
  · rw [hones, hlen]; norm_num
  · rw [hones, hlen]; norm_num
  · rw [hones, hlen]
    have h4 : (0:ℝ) < Real.sqrt 4 := Real.sqrt_pos.mpr (by norm_num)
    have : |((2:ℕ):ℝ) / ((4:ℕ):ℝ) - 1/2| = 0 := by norm_num
    rw [this]
    positivity

end Randqa
